import Mathlib

/-!
# Verification of the rsteg pixel-transform core

Shallow embedding of the rsteg repository (src/main.rs, src/img.rs, src/hsv.rs).

Conventions of the embedding:
* `u8` samples are `ℕ` values; wrapping is written with explicit `% 256`
  at the operations where Rust truncates to the type width.
* Operations that can panic in Rust (shift-amount overflow, integer division
  by zero, failed `assert!`, the `unreachable!()` arm) are `Option`-valued,
  with `none` marking the panic.
* `f32` arithmetic of hsv.rs is embedded in exact rational arithmetic `ℚ`;
  the Rust float remainder `%` (sign of the dividend) and the saturating
  `as u8` cast are modelled explicitly.  Concrete counterexamples below are
  chosen so that every `f32` operation on them is exact, hence the rational
  model and the compiled program agree on those inputs.
* Pixel buffers are `List ℕ` (flat samples) for the sample-wise transforms
  (cipher, conceal) and `List (ℕ × ℕ × ℕ)` (RGB triples, i.e. the
  `chunks_exact(3)` view) for the per-pixel transforms (stretch, equalize).
-/

/-- `main.rs` quantization step (`*c >>= 8 - args.bits`): keep the high
`bits` bits of a sample by shifting right. -/
def quantize (bits x : ℕ) : ℕ := x >>> (8 - bits)

/-- `main.rs` output expansion (`(*c & mask) as u16 * max_out as u16 / mask as u16`
with `mask = u8::MAX >> (8 - bits)`): rescale the low `bits` bits to 0..255. -/
def dequantize (bits x : ℕ) : ℕ :=
  let mask := 255 >>> (8 - bits)
  (x &&& mask) * 255 / mask

/-- The conceal high-bit mask `u8::MAX << bits`.  For `bits ≥ 8` the shift
amount equals the `u8` width: Rust panics in debug builds (release builds
mask the shift amount, which also breaks the round trip); modelled `none`.
For `bits < 8` the shifted-out value bits are discarded (`% 256`). -/
def concealMask (bits : ℕ) : Option ℕ :=
  if 8 ≤ bits then none else some ((255 <<< bits) % 256)

/-- `img.rs::conceal` merge loop: `*c |= *i_c & mask` over
`buf.iter_mut().zip(i_buf.iter())`.  `buf` is the (already quantized)
input being hidden, `ibuf` the decoded secondary image; dimensions are
checked equal before this loop, so the two buffers have the same length. -/
def concealImg (bits : ℕ) (buf ibuf : List ℕ) : Option (List ℕ) :=
  (concealMask bits).map fun mask =>
    buf.zipWith (fun c ic => c ||| (ic &&& mask)) ibuf

/-- The reveal pipeline of `main.rs`: in `--reveal` mode the buffer is not
shifted, and the non-conceal output branch applies `dequantize` to every
sample. -/
def revealBuf (bits : ℕ) (buf : List ℕ) : List ℕ :=
  buf.map (dequantize bits)

/-- Modelled from the spec: `KeyedRandomSequence` —
the ChaCha20 generator (`rand_chacha`, an external crate) seeded from the
64-bit key.  `rng i` is the `i`-th raw draw of the keyed sequence; the same
key always regenerates the same sequence, so a run of the program
corresponds to a fixed `rng : ℕ → ℕ`.  `genRange rng i hi` models
`rng.gen_range(0..=hi)`: the `i`-th draw reduced into `[0, hi]`. -/
def genRange (rng : ℕ → ℕ) (i hi : ℕ) : ℕ := rng i % (hi + 1)

/-- `stream_cipher` loop (`img.rs` / `main.rs`): XOR each sample with the
next keystream draw from `gen_range(0..=max)`, `max = u8::MAX >> (8 - bits)`;
`i` is the current position of the keystream. -/
def streamCipherAux (rng : ℕ → ℕ) (bits : ℕ) : ℕ → List ℕ → List ℕ
  | _, [] => []
  | i, x :: xs =>
    (x ^^^ genRange rng i (255 >>> (8 - bits))) :: streamCipherAux rng bits (i + 1) xs

/-- `stream_cipher(buf, key, bits)`: a fresh generator is seeded from the
key, so the keystream starts at position 0. -/
def stream_cipher (rng : ℕ → ℕ) (bits : ℕ) (buf : List ℕ) : List ℕ :=
  streamCipherAux rng bits 0 buf

/-- In-place swap of positions `i` and `j` of a buffer; out-of-range
indices leave the buffer unchanged (the Permuter only ever swaps in
range). -/
def lswap (l : List ℕ) (i j : ℕ) : List ℕ :=
  match l[i]?, l[j]? with
  | some a, some b => (l.set i b).set j a
  | _, _ => l

/-- Modelled from the spec (§4.7): the Permuter is absent from `src/`.
`apply` replays the Fisher–Yates swap trace: for `i = n-1` down to `1`,
draw `gen_range(0..=i)` (the `(n-1-i)`-th draw of the keyed sequence) and
swap `buf[i]` with the drawn position.  The recursion parameter is the
current index `i`; indices `i, i-1, …, 1` remain to be processed. -/
def Permuter.applyAux (rng : ℕ → ℕ) (n : ℕ) : ℕ → List ℕ → List ℕ
  | 0, buf => buf
  | i + 1, buf =>
    Permuter.applyAux rng n i (lswap buf (i + 1) (genRange rng (n - 1 - (i + 1)) (i + 1)))

/-- Modelled from the spec (§4.7): scramble `buf` with the swap trace
generated descending from `i = n - 1` to `1`. -/
def Permuter.apply (rng : ℕ → ℕ) (buf : List ℕ) : List ℕ :=
  Permuter.applyAux rng buf.length (buf.length - 1) buf

/-- Modelled from the spec (§4.7): unscramble regenerates the identical
draw sequence (each index `i` gets the same `(n-1-i)`-th draw) but applies
the swaps ascending from `i = 1` to `n - 1`: the swap at `i + 1` is applied
after all swaps at indices `≤ i`. -/
def Permuter.invAux (rng : ℕ → ℕ) (n : ℕ) : ℕ → List ℕ → List ℕ
  | 0, buf => buf
  | i + 1, buf =>
    lswap (Permuter.invAux rng n i buf) (i + 1) (genRange rng (n - 1 - (i + 1)) (i + 1))

/-- Modelled from the spec (§4.7): unscramble. -/
def Permuter.inverse (rng : ℕ → ℕ) (buf : List ℕ) : List ℕ :=
  Permuter.invAux rng buf.length (buf.length - 1) buf

/-- Rust integer division panics when the divisor is zero (in every build
profile); modelled `none`. -/
def rdiv (a b : ℕ) : Option ℕ := if b = 0 then none else some (a / b)

/-- One channel of the `img.rs::stretch` rewrite loop:
`if *max == 0 {0} else {(*c - *min) as u16 * maxx as u16 / (*max - *min) as u16}`
with `maxx = u8::MAX`.  `c ≥ min` always holds (`min` is the channel
minimum), so the `u8` subtraction cannot underflow; the division panics
whenever `max ≠ 0` and `max = min`. -/
def stretchChan (c : ℕ) (mm : ℕ × ℕ) : Option ℕ :=
  if mm.2 = 0 then some 0 else rdiv ((c - mm.1) * 255) (mm.2 - mm.1)

/-- Per-channel (min, max) fold of `img.rs::stretch`, starting from
`vec![(u8::MAX, 0u8); 3]`. -/
def stretchMinmax (pixels : List (ℕ × ℕ × ℕ)) : (ℕ × ℕ) × (ℕ × ℕ) × (ℕ × ℕ) :=
  pixels.foldl
    (fun mm p =>
      ((min mm.1.1 p.1, max mm.1.2 p.1),
       (min mm.2.1.1 p.2.1, max mm.2.1.2 p.2.1),
       (min mm.2.2.1 p.2.2, max mm.2.2.2 p.2.2)))
    ((255, 0), (255, 0), (255, 0))

/-- Option-valued map over a list: `none` as soon as one element fails
(models a panic inside a per-pixel loop). -/
def mapO (f : α → Option β) : List α → Option (List β)
  | [] => some []
  | a :: as =>
    match f a, mapO f as with
    | some b, some bs => some (b :: bs)
    | _, _ => none

/-- `img.rs::stretch` on the RGB-triple view of the buffer. -/
def stretch (pixels : List (ℕ × ℕ × ℕ)) : Option (List (ℕ × ℕ × ℕ)) :=
  let mm := stretchMinmax pixels
  mapO
    (fun p => do
      let r ← stretchChan p.1 mm.1
      let g ← stretchChan p.2.1 mm.2.1
      let b ← stretchChan p.2.2 mm.2.2
      pure (r, g, b))
    pixels

/-- `chunks_exact(n)`: split a flat buffer into pixels of `n` samples,
dropping a final incomplete chunk. -/
def chunkE (n : ℕ) (l : List ℕ) : List (List ℕ) :=
  if _h : n = 0 ∨ l.length < n then [] else l.take n :: chunkE n (l.drop n)
termination_by l.length
decreasing_by
  simp only [List.length_drop]
  omega

/-- One pixel of the `main.rs` conceal merge:
`for (i_c, c) in i_p.iter_mut().zip(p) { *i_c = (*i_c & mask) | c; }` —
channels pair index-to-index, the zip stops at the shorter pixel, and the
remaining channels of the hidden-side pixel `ip` are left unchanged. -/
def mergePixel (mask : ℕ) : List ℕ → List ℕ → List ℕ
  | [], _ => []
  | ip, [] => ip
  | ic :: ip, c :: p => ((ic &&& mask) ||| c) :: mergePixel mask ip p

/-- Pixel-by-pixel zip of the conceal loop; surplus pixels of the
hidden-side buffer (none arise once the dimension check passed) stay
unchanged, since that buffer is mutated in place and becomes the output. -/
def mergePixels (mask : ℕ) : List (List ℕ) → List (List ℕ) → List (List ℕ)
  | [], _ => []
  | ips, [] => ips
  | ip :: ips, p :: ps => mergePixel mask ip p :: mergePixels mask ips ps

/-- The conceal block of `main.rs` after the dimension check: `buf` is the
processed input (pixel stride `samples`, of which the last `alpha` channels
are alpha), `ibuf` the decoded secondary image (stride `isamples`, `ialpha`
alpha channels).  `assert!(i_samples - i_alpha == samples - alpha)` panics
when the non-alpha channel counts differ. -/
def concealMain (samples alpha isamples ialpha bits : ℕ) (buf ibuf : List ℕ) :
    Option (List ℕ) :=
  if isamples - ialpha = samples - alpha then
    (concealMask bits).map fun mask =>
      (mergePixels mask (chunkE isamples ibuf) (chunkE samples buf)).flatten
  else none

/-- Truncation toward zero, as performed by the Rust float remainder
operator when computing `a - b * trunc(a / b)`. -/
def qtrunc (q : ℚ) : ℤ := if 0 ≤ q then ⌊q⌋ else -⌊-q⌋

/-- The Rust `%` on floats: remainder with the sign of the dividend. -/
def frem (a b : ℚ) : ℚ := a - b * (qtrunc (a / b) : ℚ)

/-- The Rust `as u8` cast from a float: truncation toward zero with
saturation at 0 and 255. -/
def toU8 (q : ℚ) : ℕ := if q < 0 then 0 else min 255 ⌊q⌋.toNat

/-- `hsv.rs::HSVColor`: hue in degrees, saturation and value in `[0,1]`
(the `f32` fields embedded as exact rationals). -/
structure HSVColor where
  hue : ℚ
  sat : ℚ
  val : ℚ
deriving DecidableEq

/-- `hsv.rs::HSVColor::from_rgb`: normalize by `n = (1 << depth) - 1`,
value = max channel, chroma = value - min channel, six-sector hue (the
`v == r` sector uses the Rust float `%`, which keeps the sign of `g - b`),
saturation = chroma / value with the zero guards of the source.  The final
`unreachable!()` arm is never taken because the maximum equals one of the
three channels (proved below in `from_rgb_max_cases`). -/
def HSVColor.from_rgb (red green blue : ℕ) (depth : ℕ) : HSVColor :=
  let n : ℚ := ((2 ^ depth - 1 : ℕ) : ℚ)
  let r : ℚ := red / n
  let g : ℚ := green / n
  let b : ℚ := blue / n
  let v : ℚ := max r (max g b)
  let c : ℚ := v - min r (min g b)
  let h : ℚ :=
    (if c = 0 then 0
     else if v = r then frem ((g - b) / c) 6
     else if v = g then (b - r) / c + 2
     else if v = b then (r - g) / c + 4
     else 0) * 60
  let s : ℚ := if v = 0 then 0 else c / v
  ⟨h, s, v⟩

/-- `hsv.rs::HSVColor::to_rgb`: sector reconstruction.  The guards
`v if v < 1.0`, …, `v if v < 6.0` of the Rust `match` are the nested
conditionals; the `_ => unreachable!()` arm (reached exactly when
`hue / 60 ≥ 6`) panics and is modelled `none`.  No range reduction of the
hue is performed before the sector selection (only `x` uses `h % 2.0`). -/
def HSVColor.to_rgb (hsv : HSVColor) (depth : ℕ) : Option (ℕ × ℕ × ℕ) :=
  let c : ℚ := hsv.val * hsv.sat
  let h : ℚ := hsv.hue / 60
  let x : ℚ := c * (1 - |frem h 2 - 1|)
  let m : ℚ := hsv.val - c
  let sector : Option (ℚ × ℚ × ℚ) :=
    if h < 1 then some (c, x, 0)
    else if h < 2 then some (x, c, 0)
    else if h < 3 then some (0, c, x)
    else if h < 4 then some (0, x, c)
    else if h < 5 then some (x, 0, c)
    else if h < 6 then some (c, 0, x)
    else none
  sector.map fun rgb1 =>
    let n : ℚ := ((2 ^ depth - 1 : ℕ) : ℚ)
    (toU8 ((rgb1.1 + m) * n), toU8 ((rgb1.2.1 + m) * n), toU8 ((rgb1.2.2 + m) * n))

/-- `vals.sort_by(partial_cmp)` of the equalizer: a comparison sort; at the
level of values its result is the ascending reordering of the list, modelled
by insertion sort over `≤`. -/
def qsortVals (l : List ℚ) : List ℚ := l.insertionSort (· ≤ ·)

/-- `vals.dedup()`: remove *consecutive* duplicate elements (Rust `Vec::dedup`
semantics; after the sort this leaves the distinct values). -/
def dedupAdj : List ℚ → List ℚ
  | [] => []
  | [a] => [a]
  | a :: b :: rest => if a = b then dedupAdj (b :: rest) else a :: dedupAdj (b :: rest)

/-- The `sortedUniqueValues` vector of the equalizer: sort then dedup. -/
def sortDedup (l : List ℚ) : List ℚ := dedupAdj (qsortVals l)

/-- `vals.binary_search_by(...).unwrap()`: on the sorted duplicate-free
`vals` the binary search returns the position of `v`; every value passed to
the cdf occurs in `vals` (it came from the very collection that built
`vals`), so the `unwrap` never panics.  Modelled as the index of `v`. -/
def rank (vals : List ℚ) (v : ℚ) : ℕ := vals.indexOf v

/-- The equalizer cdf closure
`|v| vals.binary_search_by(...).unwrap() as f32 / (vals.len() - 1) as f32`.
The operands are `f32` casts of machine integers; when `vals.len() == 1`
the division is `0.0 / 0.0`, which is IEEE NaN (not a panic), modelled
`none`.  (A nonzero numerator cannot meet a zero denominator: with one
unique value the rank of a present value is 0.) -/
def cdfNaN (vals : List ℚ) (v : ℚ) : Option ℚ :=
  if (vals.length - 1 : ℕ) = 0 then none
  else some ((rank vals v : ℚ) / ((vals.length - 1 : ℕ) : ℚ))

/-- The value-field rewrite of the equalize loop, viewed on the list of
per-pixel HSV values: each pixel value is replaced by `cdf(v)` (NaN as
`none`). -/
def equalizedVals (vals : List ℚ) : List (Option ℚ) :=
  vals.map (cdfNaN (sortDedup vals))

/-- The equalize mode of `main.rs` (RGB path, `samples - alpha == 3`):
convert every pixel to HSV at the working bit depth, build the cdf over the
sorted distinct values, rewrite each pixel value by the cdf and convert
back to RGB.  `none` when a cdf application yields NaN (single unique
value: the value field of every pixel becomes NaN, and no exact numeric
buffer results) or when `to_rgb` panics. -/
def equalize (pixels : List (ℕ × ℕ × ℕ)) (bits : ℕ) : Option (List (ℕ × ℕ × ℕ)) :=
  let hsvs := pixels.map fun p => HSVColor.from_rgb p.1 p.2.1 p.2.2 bits
  let vals := sortDedup (hsvs.map HSVColor.val)
  mapO
    (fun hsv => (cdfNaN vals hsv.val).bind fun w =>
      HSVColor.to_rgb ⟨hsv.hue, hsv.sat, w⟩ bits)
    hsvs

/-! ## Basic lemmas -/

theorem shiftRight_mask_eq (bits : ℕ) (h8 : bits ≤ 8) :
    255 >>> (8 - bits) = 2 ^ bits - 1 := by
  interval_cases bits <;> decide

theorem concealMask_eq (bits : ℕ) (h8 : bits < 8) :
    concealMask bits = some (256 - 2 ^ bits) := by
  interval_cases bits <;> decide

theorem set_getElem_self_eq (l : List ℕ) (i : ℕ) (h : i < l.length) :
    l.set i l[i] = l := by
  apply List.ext_getElem (by simp)
  intro n h1 h2
  by_cases hn : n = i
  · subst hn; simp
  · rw [List.getElem_set_ne (by omega)]

theorem lswap_eq_some (l : List ℕ) (i j : ℕ) (a b : ℕ)
    (h1 : l[i]? = some a) (h2 : l[j]? = some b) :
    lswap l i j = (l.set i b).set j a := by
  unfold lswap
  rw [h1, h2]

theorem lswap_self (l : List ℕ) (i : ℕ) : lswap l i i = l := by
  rcases hi : l[i]? with _ | a
  · simp only [lswap, hi]
  · obtain ⟨hi', rfl⟩ := List.getElem?_eq_some_iff.mp hi
    rw [lswap_eq_some l i i _ _ hi hi, List.set_set, set_getElem_self_eq]

theorem lswap_lswap (l : List ℕ) (i j : ℕ) : lswap (lswap l i j) i j = l := by
  by_cases hij : i = j
  · subst hij; rw [lswap_self, lswap_self]
  rcases hi : l[i]? with _ | a
  · simp only [lswap, hi]
  rcases hj : l[j]? with _ | b
  · simp only [lswap, hi, hj]
  obtain ⟨hi', rfl⟩ := List.getElem?_eq_some_iff.mp hi
  obtain ⟨hj', rfl⟩ := List.getElem?_eq_some_iff.mp hj
  rw [lswap_eq_some l i j _ _ hi hj]
  have g1i : ((l.set i l[j]).set j l[i])[i]? = some l[j] := by
    rw [List.getElem?_set_ne (fun h => hij h.symm), List.getElem?_set_self (by simpa using hi')]
  have g1j : ((l.set i l[j]).set j l[i])[j]? = some l[i] := by
    rw [List.getElem?_set_self (by simpa using hj')]
  rw [lswap_eq_some _ i j _ _ g1i g1j]
  apply List.ext_getElem (by simp)
  intro n hn1 hn2
  by_cases hnj : n = j
  · subst hnj; rw [List.getElem_set_self]
  by_cases hni : n = i
  · subst hni
    rw [List.getElem_set_ne (fun h => hnj h.symm), List.getElem_set_self]
  · rw [List.getElem_set_ne (fun h => hnj h.symm), List.getElem_set_ne (fun h => hni h.symm),
      List.getElem_set_ne (fun h => hnj h.symm), List.getElem_set_ne (fun h => hni h.symm)]

/-! ## C1 — Permuter round trip (modelled from the spec) -/

theorem permuter_aux_round_trip (rng : ℕ → ℕ) (n : ℕ) :
    ∀ (i : ℕ) (buf : List ℕ),
      Permuter.invAux rng n i (Permuter.applyAux rng n i buf) = buf := by
  intro i
  induction i with
  | zero => intro buf; rfl
  | succ i ih =>
    intro buf
    simp only [Permuter.applyAux, Permuter.invAux, ih, lswap_lswap]

theorem permuter_apply_length (rng : ℕ → ℕ) (n : ℕ) :
    ∀ (i : ℕ) (buf : List ℕ), (Permuter.applyAux rng n i buf).length = buf.length := by
  intro i
  induction i with
  | zero => intro buf; rfl
  | succ i ih =>
    intro buf
    simp only [Permuter.applyAux, ih]
    unfold lswap
    split <;> simp

/-- C1: for every buffer (any length `n ≥ 0`) and every keyed draw sequence
(deterministically regenerated from the 64-bit key — the same key yields
the same `rng`), unscrambling after scrambling restores the buffer:
`apply` replays the Fisher–Yates swap trace descending from `i = n-1` to
`1`, `inverse` replays the identically regenerated draws applying swaps
ascending from `i = 1`. -/
theorem permuter_round_trip (rng : ℕ → ℕ) (buf : List ℕ) :
    Permuter.inverse rng (Permuter.apply rng buf) = buf := by
  unfold Permuter.inverse Permuter.apply
  rw [permuter_apply_length]
  exact permuter_aux_round_trip rng buf.length (buf.length - 1) buf

/-! ## C4 — stream cipher is self-inverse -/

theorem streamCipherAux_involutive (rng : ℕ → ℕ) (bits : ℕ) :
    ∀ (xs : List ℕ) (i : ℕ),
      streamCipherAux rng bits i (streamCipherAux rng bits i xs) = xs := by
  intro xs
  induction xs with
  | nil => intro i; rfl
  | cons x xs ih =>
    intro i
    simp only [streamCipherAux, ih, Nat.xor_cancel_right]

/-- C4: for every buffer, key and bit width in `[1,8]`, encrypting twice
with the same key and bit width restores the buffer — the keystream is
regenerated identically from the seed (same `rng`, restarting at
position 0) and XOR is self-inverse. -/
theorem stream_cipher_self_inverse (rng : ℕ → ℕ) (bits : ℕ) (buf : List ℕ)
    (h1 : 1 ≤ bits) (h8 : bits ≤ 8) :
    stream_cipher rng bits (stream_cipher rng bits buf) = buf :=
  streamCipherAux_involutive rng bits buf 0

/-- Witness for C4 at a concrete generator, buffer and bit width. -/
theorem stream_cipher_self_inverse_witness :
    stream_cipher (fun i => 7 * i + 3) 3
      (stream_cipher (fun i => 7 * i + 3) 3 [17, 200, 0]) = [17, 200, 0] :=
  stream_cipher_self_inverse (fun i => 7 * i + 3) 3 [17, 200, 0]
    (by decide) (by decide)

/-! ## C10 — the cipher only touches the low `bits` bits -/

theorem xor_low_bits_shiftRight (x s b : ℕ) (hs : s < 2 ^ b) :
    (x ^^^ s) >>> b = x >>> b := by
  apply Nat.eq_of_testBit_eq
  intro i
  rw [Nat.testBit_shiftRight, Nat.testBit_shiftRight, Nat.testBit_xor,
    Nat.testBit_lt_two_pow (lt_of_lt_of_le hs (Nat.pow_le_pow_right (by norm_num) (by omega))),
    Bool.xor_false]

theorem genRange_lt_two_pow (rng : ℕ → ℕ) (bits i : ℕ) (h8 : bits ≤ 8) :
    genRange rng i (255 >>> (8 - bits)) < 2 ^ bits := by
  unfold genRange
  rw [shiftRight_mask_eq bits h8, Nat.sub_add_cancel Nat.one_le_two_pow]
  exact Nat.mod_lt _ (Nat.pow_pos (by norm_num))

theorem streamCipherAux_high_bits (rng : ℕ → ℕ) (bits : ℕ) (h8 : bits ≤ 8) :
    ∀ (xs : List ℕ) (i : ℕ),
      (streamCipherAux rng bits i xs).map (· >>> bits) = xs.map (· >>> bits) := by
  intro xs
  induction xs with
  | nil => intro i; rfl
  | cons x xs ih =>
    intro i
    simp only [streamCipherAux, List.map_cons, ih]
    rw [xor_low_bits_shiftRight _ _ _ (genRange_lt_two_pow rng bits i h8)]

/-- C10: for every buffer of bytes, every keyed sequence and every bit
width in `[1,8]`, the stream cipher preserves the high `8 - bits` bits of
every sample: each keystream draw lies in `[0, 2^bits - 1]` and XOR with
such a value cannot change the bits above position `bits`. -/
theorem stream_cipher_high_bits (rng : ℕ → ℕ) (bits : ℕ) (buf : List ℕ)
    (h1 : 1 ≤ bits) (h8 : bits ≤ 8) (hbuf : ∀ x ∈ buf, x < 256) :
    (stream_cipher rng bits buf).map (· >>> bits) = buf.map (· >>> bits) :=
  streamCipherAux_high_bits rng bits h8 buf 0

/-- Witness for C10 at a concrete generator, buffer and bit width. -/
theorem stream_cipher_high_bits_witness :
    (stream_cipher (fun i => 11 * i + 5) 2 [255, 3, 128]).map (· >>> 2) =
      [255, 3, 128].map (· >>> 2) :=
  stream_cipher_high_bits (fun i => 11 * i + 5) 2 [255, 3, 128]
    (by decide) (by decide) (by decide)

/-! ## C5 — Stretcher on a constant channel -/

/-- C5 (code bug): on a buffer whose channels are constant and nonzero
(here a single pixel `(1,1,1)`), the `max == 0` guard of `stretch` does not
fire, and `(*c - *min) * 255 / (*max - *min)` divides by zero — the claimed
defined fallback (output 0 for a constant channel, no division by zero)
does not hold. -/
theorem stretch_const_nonzero_panics : stretch [(1, 1, 1)] = none := by decide

/-! ## C7 — to_rgb sector selection -/

/-- C7 counterexample: a hue of exactly 360 does not map to the sector of
hue 0 — `hue / 60 = 6` fails every `v < k` guard and reaches the
`unreachable!()` arm (a panic), while hue 0 selects the first sector. -/
theorem to_rgb_hue360_panics : HSVColor.to_rgb ⟨360, 0, 0⟩ 8 = none := by
  simp only [HSVColor.to_rgb, frem, qtrunc, toU8]
  norm_num

/-- C7 (amended): `to_rgb` performs no range reduction of the hue; the
sector selection succeeds exactly on `hue < 360` (negative hues fall into
the first sector), and a hue of exactly 360 panics instead of mapping to
the sector of hue 0. -/
theorem to_rgb_sector_total (hsv : HSVColor) (d : ℕ) (h : hsv.hue < 360) :
    (hsv.to_rgb d).isSome = true := by
  unfold HSVColor.to_rgb
  have h6 : hsv.hue / 60 < 6 := by
    rw [div_lt_iff₀ (by norm_num : (0 : ℚ) < 60)]; linarith
  simp only [Option.isSome_map]
  split_ifs <;> simp_all

/-- Witness for C7 at a concrete color with hue just below 360. -/
theorem to_rgb_sector_total_witness : ((HSVColor.to_rgb ⟨359, 1, 1⟩ 8).isSome = true) :=
  to_rgb_sector_total ⟨359, 1, 1⟩ 8 (by norm_num)

/-! ## C8 — channel-count mismatch in the conceal block -/

/-- C8 counterexample: a cover with 3 non-alpha channels and a hidden-side
image with 1 channel do not merge by clamping channel indices — the
`assert!(i_samples - i_alpha == samples - alpha)` fails (a panic), so the
merge does not complete. -/
theorem concealMain_mismatch_fails :
    concealMain 3 0 1 0 2 [10, 20, 30] [4] = none := by decide

/-- C8 (amended): the conceal block asserts equal non-alpha channel
counts; when the counts differ only by an alpha channel (here RGB cover,
RGBA hidden side, `bits = 2`), the channels pair index-to-index — output
channel `i` merges hidden channel `i` with cover channel `i` — and the
extra alpha channel is left unchanged.  No `min(hiddenChannels-1, i)`
clamping occurs. -/
theorem concealMain_alpha_pairing (r gc bl a b c al : ℕ) :
    concealMain 3 0 4 1 2 [r, gc, bl] [a, b, c, al] =
      some [(a &&& 252) ||| r, (b &&& 252) ||| gc, (c &&& 252) ||| bl, al] := by
  show (if (4 - 1 : ℕ) = 3 - 0 then _ else none) = _
  rw [if_pos (by norm_num)]
  rw [concealMask_eq 2 (by norm_num)]
  simp [chunkE, mergePixels, mergePixel]

/-! ## C2 — conceal/reveal round trip -/

theorem quantize_lt (bits x : ℕ) (h8 : bits ≤ 8) (hx : x < 256) :
    quantize bits x < 2 ^ bits := by
  unfold quantize
  rw [Nat.shiftRight_eq_div_pow]
  apply Nat.div_lt_of_lt_mul
  calc x < 256 := hx
    _ = 2 ^ 8 := by norm_num
    _ = 2 ^ (8 - bits) * 2 ^ bits := by rw [← pow_add]; congr 1; omega

theorem merged_low_bits (bits q ic : ℕ) (h8 : bits ≤ 8) (hq : q < 2 ^ bits) :
    (q ||| (ic &&& (256 - 2 ^ bits))) &&& (2 ^ bits - 1) = q := by
  have hdvd : 2 ^ bits ∣ 256 - 2 ^ bits := by
    apply Nat.dvd_sub'
    · have : (256 : ℕ) = 2 ^ 8 := by norm_num
      rw [this]; exact pow_dvd_pow 2 h8
    · exact dvd_rfl
  obtain ⟨k, hk⟩ := hdvd
  rw [Nat.and_distrib_right, Nat.and_pow_two_sub_one_eq_mod, Nat.mod_eq_of_lt hq,
    Nat.and_assoc, Nat.and_pow_two_sub_one_eq_mod, hk, Nat.mul_mod_right,
    Nat.and_zero, Nat.or_zero]

theorem dequantize_merged (bits q ic : ℕ) (h8 : bits ≤ 8) (hq : q < 2 ^ bits) :
    dequantize bits (q ||| (ic &&& (256 - 2 ^ bits))) = dequantize bits q := by
  simp only [dequantize, shiftRight_mask_eq bits h8]
  rw [merged_low_bits bits q ic h8 hq, Nat.and_pow_two_sub_one_eq_mod, Nat.mod_eq_of_lt hq]

theorem zip_merge_dequant (bits : ℕ) (h8 : bits ≤ 8) :
    ∀ (qs cover : List ℕ), (∀ q ∈ qs, q < 2 ^ bits) → qs.length = cover.length →
      (qs.zipWith (fun c ic => c ||| (ic &&& (256 - 2 ^ bits))) cover).map (dequantize bits) =
        qs.map (dequantize bits) := by
  intro qs
  induction qs with
  | nil => intro cover _ _; rfl
  | cons q qs ih =>
    intro cover hq hlen
    rcases cover with _ | ⟨ic, cover⟩
    · simp at hlen
    · simp only [List.zipWith_cons_cons, List.map_cons]
      rw [dequantize_merged bits q ic h8 (hq q (by simp)),
        ih cover (fun a ha => hq a (by simp [ha])) (by simpa using hlen)]

/-- C2 counterexample: with `bits = 8` the conceal mask `u8::MAX << bits`
overflows the `u8` shift (the shift amount equals the type width), so the
merge panics in a debug build (and in a release build the masked shift
leaves `mask = 0xFF`, making the merged sample `hidden | cover` — also not
the claimed value).  The claimed full-precision recovery of the hidden
buffer `[0]` therefore fails. -/
theorem conceal_reveal_bits8_fails :
    (concealImg 8 ([0].map (quantize 8)) [1]).map (revealBuf 8) ≠ some [0] := by decide

/-- C2 (amended): for bit widths in `[1,7]`, revealing after embedding
recovers the hidden buffer rescaled to the `bits`-bit precision it was
quantized to before embedding — each revealed sample is the merged
sample's low `bits` bits rescaled by `* 255 / ((1 << bits) - 1)`, which
equals `dequantize(quantize(hidden))` and not the full-precision hidden
sample.  (`bits = 8` is excluded: the mask shift overflows, see
`conceal_reveal_bits8_fails`.) -/
theorem conceal_reveal_round_trip (bits : ℕ) (cover hidden : List ℕ)
    (h1 : 1 ≤ bits) (h7 : bits ≤ 7) (hlen : hidden.length = cover.length)
    (hh : ∀ x ∈ hidden, x < 256) :
    (concealImg bits (hidden.map (quantize bits)) cover).map (revealBuf bits) =
      some (hidden.map fun x => dequantize bits (quantize bits x)) := by
  unfold concealImg
  rw [concealMask_eq bits (by omega)]
  simp only [Option.map_some']
  unfold revealBuf
  rw [zip_merge_dequant bits (by omega) _ cover
    (fun q hq => by
      obtain ⟨x, hx, rfl⟩ := List.mem_map.mp hq
      exact quantize_lt bits x (by omega) (hh x hx))
    (by simpa using hlen)]
  rw [List.map_map]
  rfl

/-- Witness for C2 at `bits = 2`, hidden `[255, 0]`, cover `[10, 20]`. -/
theorem conceal_reveal_round_trip_witness :
    (concealImg 2 ([255, 0].map (quantize 2)) [10, 20]).map (revealBuf 2) =
      some ([255, 0].map fun x => dequantize 2 (quantize 2 x)) :=
  conceal_reveal_round_trip 2 [10, 20] [255, 0]
    (by decide) (by decide) (by decide) (by decide)

/-! ## C6 — equalizer cdf at a single unique value -/

theorem qsortVals_of_const (v : ℚ) (l : List ℚ) (hall : ∀ x ∈ l, x = v) :
    qsortVals l = List.replicate l.length v := by
  have hlen : (qsortVals l).length = l.length :=
    (List.perm_insertionSort (· ≤ ·) l).length_eq
  rw [← hlen]
  exact List.eq_replicate_of_mem fun b hb =>
    hall b ((List.perm_insertionSort (· ≤ ·) l).mem_iff.mp hb)

theorem dedupAdj_replicate (v : ℚ) : ∀ n : ℕ, dedupAdj (List.replicate (n + 1) v) = [v] := by
  intro n
  induction n with
  | zero => rfl
  | succ n ih =>
    rw [List.replicate_succ, List.replicate_succ] at *
    simpa [dedupAdj] using ih

theorem sortDedup_of_const (v : ℚ) (l : List ℚ) (hne : l ≠ []) (hall : ∀ x ∈ l, x = v) :
    sortDedup l = [v] := by
  unfold sortDedup
  rw [qsortVals_of_const v l hall]
  obtain ⟨n, hn⟩ : ∃ n, l.length = n + 1 := by
    rcases l with _ | ⟨a, l⟩
    · exact absurd rfl hne
    · exact ⟨l.length, rfl⟩
  rw [hn, dedupAdj_replicate]

theorem cdfNaN_singleton (v x : ℚ) : cdfNaN [v] x = none := by
  simp [cdfNaN]

/-- C6 counterexample: on a buffer with a single unique HSV value (here
one gray pixel (5,5,5) at depth 8), the cdf does not return 0 — it divides
`0.0` by `0.0`, a NaN, so the pixel's value field does not become 0. -/
theorem equalize_single_value_not_zero :
    equalizedVals [(HSVColor.from_rgb 5 5 5 8).val] ≠ [some 0] := by
  unfold equalizedVals
  rw [List.map_singleton,
    sortDedup_of_const ((HSVColor.from_rgb 5 5 5 8).val) _ (by simp) (by simp),
    cdfNaN_singleton]
  simp

/-- C6 (amended): when the buffer's pixels have exactly one unique HSV
value, the cdf computes `0.0 / 0.0` — a floating-point division by zero
yielding NaN, not 0 — so every pixel's value field becomes NaN rather
than 0. -/
theorem equalize_single_value_nan (v : ℚ) (vals : List ℚ) (hne : vals ≠ [])
    (hall : ∀ x ∈ vals, x = v) :
    equalizedVals vals = List.replicate vals.length none := by
  unfold equalizedVals
  rw [sortDedup_of_const v vals hne hall]
  calc vals.map (cdfNaN [v])
      = vals.map (Function.const ℚ none) := List.map_congr_left fun x _ => cdfNaN_singleton v x
    _ = List.replicate vals.length none := List.map_const vals none

/-- Witness for C6 (amended) on a concrete single-value buffer. -/
theorem equalize_single_value_nan_witness :
    equalizedVals [(1 : ℚ)/2, 1/2] = List.replicate ([(1 : ℚ)/2, 1/2]).length none :=
  equalize_single_value_nan (1/2) [1/2, 1/2] (by simp) (by simp)

/-! ## C3 — HSV round trip -/

theorem qtrunc_nonneg (q : ℚ) (h : 0 ≤ q) : qtrunc q = ⌊q⌋ := if_pos h

theorem qtrunc_zero_of (q : ℚ) (h1 : -1 < q) (h2 : q < 1) : qtrunc q = 0 := by
  unfold qtrunc
  split_ifs with h
  · exact Int.floor_eq_zero_iff.mpr ⟨h, h2⟩
  · push_neg at h
    rw [Int.floor_eq_zero_iff.mpr ⟨by linarith, by linarith⟩, neg_zero]

theorem frem_six_small (t : ℚ) (h1 : -6 < t) (h2 : t < 6) : frem t 6 = t := by
  unfold frem
  rw [qtrunc_zero_of (t / 6)
    (by rw [neg_lt, ← neg_div, div_lt_one (by norm_num : (0:ℚ) < 6)]; linarith)
    (by rw [div_lt_one (by norm_num : (0:ℚ) < 6)]; linarith)]
  push_cast
  ring

theorem frem_two_eq (h : ℚ) (k : ℤ) (hk0 : 0 ≤ k) (h1 : 2 * k ≤ h) (h2 : h < 2 * k + 2) :
    frem h 2 = h - 2 * k := by
  unfold frem
  have hk0q : (0 : ℚ) ≤ (k : ℚ) := by exact_mod_cast hk0
  have hfl : ⌊h / 2⌋ = k := by
    rw [Int.floor_eq_iff]
    constructor
    · rw [le_div_iff₀ (by norm_num : (0:ℚ) < 2)]; linarith
    · rw [div_lt_iff₀ (by norm_num : (0:ℚ) < 2)]; push_cast; linarith
  rw [qtrunc_nonneg _ (div_nonneg (by linarith) (by norm_num)), hfl]

theorem toU8_natCast (k : ℕ) (hk : k ≤ 255) : toU8 (k : ℚ) = k := by
  unfold toU8
  rw [if_neg (not_lt.mpr (by positivity)), Int.floor_natCast, Int.toNat_natCast,
    min_eq_right hk]

theorem toU8_channel (n : ℚ) (hn : 0 < n) (K : ℕ) (hK : K ≤ 255) (e : ℚ)
    (he : e = (K : ℚ) / n) : toU8 (e * n) = K := by
  rw [he, div_mul_cancel₀ _ hn.ne', toU8_natCast K hK]

theorem frem_two_0 (t : ℚ) (h0 : 0 ≤ t) (h2 : t < 2) : frem t 2 = t := by
  have := frem_two_eq t 0 le_rfl (by push_cast; linarith) (by push_cast; linarith)
  simpa using this

theorem frem_two_1 (t : ℚ) (h0 : 2 ≤ t) (h2 : t < 4) : frem t 2 = t - 2 := by
  have := frem_two_eq t 1 (by norm_num) (by push_cast; linarith) (by push_cast; linarith)
  push_cast at this
  linarith

theorem frem_two_2 (t : ℚ) (h0 : 4 ≤ t) (h2 : t < 6) : frem t 2 = t - 4 := by
  have := frem_two_eq t 2 (by norm_num) (by push_cast; linarith) (by push_cast; linarith)
  push_cast at this
  linarith

/-- C3 counterexample: the round trip is not exact for every valid triple.
At depth 1 the triple `(1, 0, 1)` (red and blue full, green zero) has red as
the (first-matching) maximum channel with green < blue, so `from_rgb`
computes `((g - b)/c) % 6 = -1` — the Rust float `%` keeps the dividend's
sign — giving hue `-60`.  `to_rgb` then selects the first sector, produces
a negative green component, and the saturating `as u8` cast returns
`(1, 0, 0)` instead of `(1, 0, 1)`.  Every `f32` operation on this input is
exact (all intermediate values are small integers), so the rational model
agrees with the compiled program here. -/
theorem hsv_round_trip_neg_hue_fails :
    HSVColor.to_rgb (HSVColor.from_rgb 1 0 1 1) 1 ≠ some (1, 0, 1) := by
  have h1 : HSVColor.from_rgb 1 0 1 1 = ⟨-60, 1, 1⟩ := by
    simp only [HSVColor.from_rgb, frem, qtrunc, max_def, min_def]
    norm_num
  have h2 : HSVColor.to_rgb ⟨-60, 1, 1⟩ 1 = some (1, 0, 0) := by
    simp only [HSVColor.to_rgb, frem, qtrunc, toU8]
    norm_num
  rw [h1, h2]
  decide

set_option maxHeartbeats 2000000 in
/-- C3 (amended): for every depth `d ∈ [1,8]` and every valid triple
(channels in `[0, 2^d - 1]`), the HSV round trip in exact rational
arithmetic is the identity *provided the computed hue is nonnegative* —
equivalently, except when red is the maximum channel and green < blue, in
which case the sign-preserving float `%` yields a negative hue and the
round trip fails (see `hsv_round_trip_neg_hue_fails`). -/
theorem to_rgb_from_rgb_exact (d R G B : ℕ) (hd1 : 1 ≤ d) (hd8 : d ≤ 8)
    (hR : R ≤ 2 ^ d - 1) (hG : G ≤ 2 ^ d - 1) (hB : B ≤ 2 ^ d - 1)
    (hhue : 0 ≤ (HSVColor.from_rgb R G B d).hue) :
    HSVColor.to_rgb (HSVColor.from_rgb R G B d) d = some (R, G, B) := by
  have hn255 : 2 ^ d - 1 ≤ 255 := by
    have : (2:ℕ) ^ d ≤ 2 ^ 8 := Nat.pow_le_pow_right (by norm_num) hd8
    omega
  have hR255 : R ≤ 255 := le_trans hR hn255
  have hG255 : G ≤ 255 := le_trans hG hn255
  have hB255 : B ≤ 255 := le_trans hB hn255
  have hnnat : (0:ℕ) < 2 ^ d - 1 := by
    have : (2:ℕ) ^ 1 ≤ 2 ^ d := Nat.pow_le_pow_right (by norm_num) hd1
    omega
  simp only [HSVColor.to_rgb, HSVColor.from_rgb] at hhue ⊢
  set n : ℚ := ((2 ^ d - 1 : ℕ) : ℚ) with hn_def
  set r : ℚ := (R : ℚ) / n with hr_def
  set g : ℚ := (G : ℚ) / n with hg_def
  set b : ℚ := (B : ℚ) / n with hb_def
  set v : ℚ := max r (max g b) with hv_def
  set mn : ℚ := min r (min g b) with hmn_def
  have hnpos : (0:ℚ) < n := by rw [hn_def]; exact_mod_cast hnnat
  have hr0 : 0 ≤ r := by rw [hr_def]; positivity
  have hg0 : 0 ≤ g := by rw [hg_def]; positivity
  have hb0 : 0 ≤ b := by rw [hb_def]; positivity
  have hvr : r ≤ v := le_max_left _ _
  have hvg : g ≤ v := le_trans (le_max_left _ _) (le_max_right _ _)
  have hvb : b ≤ v := le_trans (le_max_right _ _) (le_max_right _ _)
  have hmr : mn ≤ r := min_le_left _ _
  have hmg : mn ≤ g := le_trans (min_le_right _ _) (min_le_left _ _)
  have hmb : mn ≤ b := le_trans (min_le_right _ _) (min_le_right _ _)
  have hm0 : 0 ≤ mn := le_min hr0 (le_min hg0 hb0)
  have h60 : (60:ℚ) ≠ 0 := by norm_num
  by_cases hc : v - mn = 0
  · -- constant pixel: chroma 0, hue 0, saturation 0
    have hveq : mn = v := by linarith
    have hrv : r = v := le_antisymm hvr (hveq ▸ hmr)
    have hgv : g = v := le_antisymm hvg (hveq ▸ hmg)
    have hbv : b = v := le_antisymm hvb (hveq ▸ hmb)
    have hsat0 : (if v = 0 then (0:ℚ) else (v - mn) / v) = 0 := by
      split_ifs with h
      · rfl
      · rw [hc, zero_div]
    rw [hsat0, if_pos hc]
    have h000 : ((0:ℚ) * 60 / 60) = 0 := by norm_num
    rw [h000, frem_two_0 0 le_rfl (by norm_num), if_pos (by norm_num : (0:ℚ) < 1)]
    simp only [Option.map_some', Option.some.injEq, Prod.mk.injEq, mul_zero, zero_mul,
      sub_zero, zero_add]
    refine ⟨?_, ?_, ?_⟩
    · exact toU8_channel n hnpos R hR255 v (by rw [← hrv, hr_def])
    · exact toU8_channel n hnpos G hG255 v (by rw [← hgv, hg_def])
    · exact toU8_channel n hnpos B hB255 v (by rw [← hbv, hb_def])
  · -- nonzero chroma
    have hcpos : 0 < v - mn := lt_of_le_of_ne (by linarith [le_trans hmr hvr]) (Ne.symm hc)
    have hv0 : 0 < v := lt_of_le_of_lt hm0 (by linarith)
    have hC : v * ((v - mn) / v) = v - mn := by field_simp
    have hM : v - (v - mn) = mn := by ring
    rw [if_neg hv0.ne', hC, hM, if_neg hc,
      mul_div_cancel_right₀ _ h60]
    rw [if_neg hc] at hhue
    by_cases hvr2 : v = r
    · -- red is the maximum channel
      rw [if_pos hvr2] at hhue ⊢
      have ht1 : (g - b) / (v - mn) ≤ 1 := by
        rw [div_le_one hcpos]; linarith
      have ht2 : -1 ≤ (g - b) / (v - mn) := by
        rw [le_div_iff₀ hcpos]; linarith
      rw [frem_six_small _ (by linarith) (by linarith)] at hhue ⊢
      have ht0 : 0 ≤ (g - b) / (v - mn) := by linarith
      have hgb : b ≤ g := by
        have := (le_div_iff₀ hcpos).mp ht0; linarith
      have hbr : b ≤ r := by have := hvb; rw [hvr2] at this; exact this
      have hmnb : mn = b := by rw [hmn_def, min_eq_right hgb, min_eq_right hbr]
      rw [hmnb] at hcpos ht0 ht1 ht2 ⊢
      have htc : (g - b) / (v - b) * (v - b) = g - b := div_mul_cancel₀ _ hcpos.ne'
      by_cases htlt : (g - b) / (v - b) < 1
      · rw [frem_two_0 _ ht0 (by linarith),
          abs_of_nonpos (by linarith : (g - b) / (v - b) - 1 ≤ 0), if_pos htlt]
        simp only [Option.map_some', Option.some.injEq, Prod.mk.injEq]
        refine ⟨?_, ?_, ?_⟩
        · exact toU8_channel n hnpos R hR255 _ (by rw [← hr_def, ← hvr2]; ring)
        · exact toU8_channel n hnpos G hG255 _ (by rw [← hg_def]; linear_combination htc)
        · exact toU8_channel n hnpos B hB255 _ (by rw [← hb_def]; ring)
      · have hteq : (g - b) / (v - b) = 1 := le_antisymm ht1 (not_lt.mp htlt)
        have hgv : g = v := by
          have := htc; rw [hteq, one_mul] at this; linarith
        rw [hteq, frem_two_0 1 (by norm_num) (by norm_num),
          if_neg (by norm_num : ¬((1:ℚ) < 1)), if_pos (by norm_num : (1:ℚ) < 2)]
        simp only [Option.map_some', Option.some.injEq, Prod.mk.injEq]
        refine ⟨?_, ?_, ?_⟩
        · exact toU8_channel n hnpos R hR255 _ (by rw [← hr_def, ← hvr2]; norm_num)
        · exact toU8_channel n hnpos G hG255 _ (by rw [← hg_def, hgv]; ring)
        · exact toU8_channel n hnpos B hB255 _ (by rw [← hb_def]; ring)
    · by_cases hvg2 : v = g
      · -- green is the maximum channel
        rw [if_neg hvr2, if_pos hvg2]
        have ht1 : (b - r) / (v - mn) ≤ 1 := by rw [div_le_one hcpos]; linarith
        have ht2 : -1 ≤ (b - r) / (v - mn) := by rw [le_div_iff₀ hcpos]; linarith
        have hgg : b ≤ g := by have := hvb; rw [hvg2] at this; exact this
        have hrg : r ≤ g := by have := hvr; rw [hvg2] at this; exact this
        by_cases htneg : (b - r) / (v - mn) < 0
        · -- sector 2: h in [1,2)
          have hbr : b - r < 0 := by
            have := (div_lt_iff₀ hcpos).mp htneg; linarith
          have hmnb : mn = b := by
            rw [hmn_def, min_eq_right hgg, min_eq_right (by linarith : b ≤ r)]
          rw [hmnb] at hcpos ht1 ht2 htneg ⊢
          have htc : (b - r) / (v - b) * (v - b) = b - r := div_mul_cancel₀ _ hcpos.ne'
          rw [frem_two_0 _ (by linarith) (by linarith),
            abs_of_nonneg (by linarith : 0 ≤ (b - r) / (v - b) + 2 - 1),
            if_neg (by linarith : ¬((b - r) / (v - b) + 2 < 1)),
            if_pos (by linarith : (b - r) / (v - b) + 2 < 2)]
          simp only [Option.map_some', Option.some.injEq, Prod.mk.injEq]
          refine ⟨?_, ?_, ?_⟩
          · exact toU8_channel n hnpos R hR255 _ (by rw [← hr_def]; linear_combination -htc)
          · exact toU8_channel n hnpos G hG255 _ (by rw [← hg_def, hvg2]; ring)
          · exact toU8_channel n hnpos B hB255 _ (by rw [← hb_def]; ring)
        · push_neg at htneg
          have hrb : r ≤ b := by
            have := (le_div_iff₀ hcpos).mp htneg; linarith
          have hmnr : mn = r := by
            rw [hmn_def, min_eq_left (le_min hrg hrb)]
          rw [hmnr] at hcpos ht1 ht2 htneg ⊢
          have htc : (b - r) / (v - r) * (v - r) = b - r := div_mul_cancel₀ _ hcpos.ne'
          by_cases htlt : (b - r) / (v - r) < 1
          · -- sector 3: h in [2,3)
            have hfr : frem ((b - r) / (v - r) + 2) 2 = (b - r) / (v - r) := by
              rw [frem_two_1 _ (by linarith) (by linarith)]; ring
            rw [hfr, abs_of_nonpos (by linarith : (b - r) / (v - r) - 1 ≤ 0),
              if_neg (by linarith : ¬((b - r) / (v - r) + 2 < 1)),
              if_neg (by linarith : ¬((b - r) / (v - r) + 2 < 2)),
              if_pos (by linarith : (b - r) / (v - r) + 2 < 3)]
            simp only [Option.map_some', Option.some.injEq, Prod.mk.injEq]
            refine ⟨?_, ?_, ?_⟩
            · exact toU8_channel n hnpos R hR255 _ (by rw [← hr_def]; ring)
            · exact toU8_channel n hnpos G hG255 _ (by rw [← hg_def, hvg2]; ring)
            · exact toU8_channel n hnpos B hB255 _ (by rw [← hb_def]; linear_combination htc)
          · -- sector boundary h = 3
            have hteq : (b - r) / (v - r) = 1 := le_antisymm ht1 (not_lt.mp htlt)
            have hbv : b = v := by
              have := htc; rw [hteq, one_mul] at this; linarith
            have hfr : frem ((1:ℚ) + 2) 2 = 1 := by
              rw [frem_two_1 _ (by norm_num) (by norm_num)]; norm_num
            rw [hteq, hfr,
              if_neg (by norm_num : ¬((1:ℚ) + 2 < 1)),
              if_neg (by norm_num : ¬((1:ℚ) + 2 < 2)),
              if_neg (by norm_num : ¬((1:ℚ) + 2 < 3)),
              if_pos (by norm_num : (1:ℚ) + 2 < 4)]
            simp only [Option.map_some', Option.some.injEq, Prod.mk.injEq]
            refine ⟨?_, ?_, ?_⟩
            · exact toU8_channel n hnpos R hR255 _ (by rw [← hr_def]; ring)
            · exact toU8_channel n hnpos G hG255 _ (by rw [← hg_def, hvg2]; norm_num)
            · exact toU8_channel n hnpos B hB255 _ (by rw [← hb_def, hbv]; norm_num)
      · -- blue is the maximum channel
        have hvb2 : v = b := by
          rcases max_choice r (max g b) with h | h
          · exact absurd (hv_def.trans h) hvr2
          · rcases max_choice g b with h2 | h2
            · exact absurd (hv_def.trans (h.trans h2)) hvg2
            · exact hv_def.trans (h.trans h2)
        rw [if_neg hvr2, if_neg hvg2, if_pos hvb2]
        have ht1 : (r - g) / (v - mn) ≤ 1 := by rw [div_le_one hcpos]; linarith
        have ht2 : -1 ≤ (r - g) / (v - mn) := by rw [le_div_iff₀ hcpos]; linarith
        have hgb : g ≤ b := by have := hvg; rw [hvb2] at this; exact this
        have hrb : r ≤ b := by have := hvr; rw [hvb2] at this; exact this
        by_cases htneg : (r - g) / (v - mn) < 0
        · -- sector 4: h in [3,4)
          have hrg : r - g < 0 := by
            have := (div_lt_iff₀ hcpos).mp htneg; linarith
          have hmnr : mn = r := by
            rw [hmn_def, min_eq_left (le_min (by linarith) hrb)]
          rw [hmnr] at hcpos ht1 ht2 htneg ⊢
          have htc : (r - g) / (v - r) * (v - r) = r - g := div_mul_cancel₀ _ hcpos.ne'
          have hfr : frem ((r - g) / (v - r) + 4) 2 = (r - g) / (v - r) + 2 := by
            rw [frem_two_1 _ (by linarith) (by linarith)]; ring
          rw [hfr, abs_of_nonneg (by linarith : 0 ≤ (r - g) / (v - r) + 2 - 1),
            if_neg (by linarith : ¬((r - g) / (v - r) + 4 < 1)),
            if_neg (by linarith : ¬((r - g) / (v - r) + 4 < 2)),
            if_neg (by linarith : ¬((r - g) / (v - r) + 4 < 3)),
            if_pos (by linarith : (r - g) / (v - r) + 4 < 4)]
          simp only [Option.map_some', Option.some.injEq, Prod.mk.injEq]
          refine ⟨?_, ?_, ?_⟩
          · exact toU8_channel n hnpos R hR255 _ (by rw [← hr_def]; ring)
          · exact toU8_channel n hnpos G hG255 _ (by rw [← hg_def]; linear_combination -htc)
          · exact toU8_channel n hnpos B hB255 _ (by rw [← hb_def, hvb2]; ring)
        · push_neg at htneg
          have hgr : g ≤ r := by
            have := (le_div_iff₀ hcpos).mp htneg; linarith
          have hmng : mn = g := by
            rw [hmn_def, min_eq_left hgb, min_eq_right hgr]
          rw [hmng] at hcpos ht1 ht2 htneg ⊢
          have htc : (r - g) / (v - g) * (v - g) = r - g := div_mul_cancel₀ _ hcpos.ne'
          by_cases htlt : (r - g) / (v - g) < 1
          · -- sector 5: h in [4,5)
            have hfr : frem ((r - g) / (v - g) + 4) 2 = (r - g) / (v - g) := by
              rw [frem_two_2 _ (by linarith) (by linarith)]; ring
            rw [hfr, abs_of_nonpos (by linarith : (r - g) / (v - g) - 1 ≤ 0),
              if_neg (by linarith : ¬((r - g) / (v - g) + 4 < 1)),
              if_neg (by linarith : ¬((r - g) / (v - g) + 4 < 2)),
              if_neg (by linarith : ¬((r - g) / (v - g) + 4 < 3)),
              if_neg (by linarith : ¬((r - g) / (v - g) + 4 < 4)),
              if_pos (by linarith : (r - g) / (v - g) + 4 < 5)]
            simp only [Option.map_some', Option.some.injEq, Prod.mk.injEq]
            refine ⟨?_, ?_, ?_⟩
            · exact toU8_channel n hnpos R hR255 _ (by rw [← hr_def]; linear_combination htc)
            · exact toU8_channel n hnpos G hG255 _ (by rw [← hg_def]; ring)
            · exact toU8_channel n hnpos B hB255 _ (by rw [← hb_def, hvb2]; ring)
          · -- h = 5 would force r = v, contradicting the earlier branch
            have hteq : (r - g) / (v - g) = 1 := le_antisymm ht1 (not_lt.mp htlt)
            have : r = v := by
              have := htc; rw [hteq, one_mul] at this; linarith
            exact absurd this.symm hvr2

/-- Witness for C3 at depth 8 on the triple (10, 20, 30), whose hue is
nonnegative (blue is the maximum channel). -/
theorem to_rgb_from_rgb_exact_witness :
    HSVColor.to_rgb (HSVColor.from_rgb 10 20 30 8) 8 = some (10, 20, 30) :=
  to_rgb_from_rgb_exact 8 10 20 30 (by decide) (by decide) (by decide) (by decide)
    (by decide)
    (by simp only [HSVColor.from_rgb, frem, qtrunc, max_def, min_def]; norm_num)

/-! ## C9 — equalizer idempotence -/

theorem from_rgb_gray (x bits : ℕ) :
    HSVColor.from_rgb x x x bits = ⟨0, 0, (x : ℚ) / ((2 ^ bits - 1 : ℕ) : ℚ)⟩ := by
  simp [HSVColor.from_rgb, max_self, min_self, sub_self, zero_div, ite_self]

theorem to_rgb_gray (w : ℚ) (bits : ℕ) :
    HSVColor.to_rgb ⟨0, 0, w⟩ bits =
      some (toU8 (w * ((2 ^ bits - 1 : ℕ) : ℚ)), toU8 (w * ((2 ^ bits - 1 : ℕ) : ℚ)),
        toU8 (w * ((2 ^ bits - 1 : ℕ) : ℚ))) := by
  simp only [HSVColor.to_rgb, mul_zero, zero_mul, zero_div, sub_zero, zero_add]
  rw [if_pos (by norm_num : (0:ℚ) < 1)]
  simp

theorem mapO_eq_some (f : α → Option β) (g : α → β) :
    ∀ (l : List α), (∀ a ∈ l, f a = some (g a)) → mapO f l = some (l.map g) := by
  intro l
  induction l with
  | nil => intro _; rfl
  | cons a as ih =>
    intro h
    simp only [mapO, h a (by simp), ih (fun x hx => h x (by simp [hx])), List.map_cons]

theorem mapO_map (f : β → Option γ) (h : α → β) :
    ∀ (l : List α), mapO f (l.map h) = mapO (fun a => f (h a)) l := by
  intro l
  induction l with
  | nil => rfl
  | cons a as ih => simp only [List.map_cons, mapO, ih]

theorem mem_dedupAdj : ∀ (l : List ℚ) (x : ℚ), x ∈ dedupAdj l ↔ x ∈ l := by
  intro l
  induction l with
  | nil => intro x; rfl
  | cons a tail ih =>
    intro x
    rcases tail with _ | ⟨b, rest⟩
    · rfl
    · by_cases hab : a = b
      · rw [show dedupAdj (a :: b :: rest) = dedupAdj (b :: rest) from by
          simp [dedupAdj, hab]]
        rw [ih x]
        subst hab
        simp
      · rw [show dedupAdj (a :: b :: rest) = a :: dedupAdj (b :: rest) from by
          simp [dedupAdj, hab]]
        simp [ih x]

theorem sorted_lt_dedupAdj : ∀ (l : List ℚ), l.Sorted (· ≤ ·) → (dedupAdj l).Sorted (· < ·) := by
  intro l
  induction l with
  | nil => intro _; exact List.sorted_nil
  | cons a tail ih =>
    intro hs
    rcases tail with _ | ⟨b, rest⟩
    · exact List.sorted_singleton a
    · rw [List.sorted_cons] at hs
      by_cases hab : a = b
      · rw [show dedupAdj (a :: b :: rest) = dedupAdj (b :: rest) from by
          simp [dedupAdj, hab]]
        exact ih hs.2
      · rw [show dedupAdj (a :: b :: rest) = a :: dedupAdj (b :: rest) from by
          simp [dedupAdj, hab]]
        rw [List.sorted_cons]
        refine ⟨?_, ih hs.2⟩
        intro y hy
        have hyb : y ∈ b :: rest := (mem_dedupAdj _ y).mp hy
        have hay : a ≤ y := hs.1 y hyb
        have hab2 : a ≤ b := hs.1 b (by simp)
        rcases List.mem_cons.mp hyb with rfl | hyr
        · exact lt_of_le_of_ne hay hab
        · have hby : b ≤ y := (List.sorted_cons.mp hs.2).1 y hyr
          exact lt_of_lt_of_le (lt_of_le_of_ne hab2 hab) hby

theorem dedupAdj_map (f : ℚ → ℚ) :
    ∀ (s : List ℚ), (∀ x ∈ s, ∀ y ∈ s, f x = f y → x = y) →
      dedupAdj (s.map f) = (dedupAdj s).map f := by
  intro s
  induction s with
  | nil => intro _; rfl
  | cons a tail ih =>
    intro hinj
    rcases tail with _ | ⟨b, rest⟩
    · rfl
    · have hinj2 : ∀ x ∈ b :: rest, ∀ y ∈ b :: rest, f x = f y → x = y :=
        fun x hx y hy => hinj x (by simp [hx]) y (by simp [hy])
      have ihr := ih hinj2
      simp only [List.map_cons] at ihr ⊢
      by_cases hab : a = b
      · have hfab : f a = f b := by rw [hab]
        rw [show dedupAdj (f a :: f b :: rest.map f) = dedupAdj (f b :: rest.map f) from by
            simp [dedupAdj, hfab],
          show dedupAdj (a :: b :: rest) = dedupAdj (b :: rest) from by simp [dedupAdj, hab]]
        exact ihr
      · have hfab : f a ≠ f b := fun h => hab (hinj a (by simp) b (by simp) h)
        rw [show dedupAdj (f a :: f b :: rest.map f) = f a :: dedupAdj (f b :: rest.map f) from by
            simp [dedupAdj, hfab],
          show dedupAdj (a :: b :: rest) = a :: dedupAdj (b :: rest) from by
            simp [dedupAdj, hab]]
        rw [List.map_cons, ihr]

theorem qsortVals_map (f : ℚ → ℚ) (l : List ℚ)
    (hmono : ∀ x ∈ l, ∀ y ∈ l, x ≤ y → f x ≤ f y) :
    qsortVals (l.map f) = (qsortVals l).map f := by
  refine List.eq_of_perm_of_sorted
    ((List.perm_insertionSort _ _).trans ((List.perm_insertionSort (· ≤ ·) l).map f).symm)
    (List.sorted_insertionSort (· ≤ ·) (l.map f)) ?_
  refine List.pairwise_map.mpr ?_
  have hs := List.sorted_insertionSort (· ≤ ·) l
  refine hs.imp_of_mem ?_
  intro x y hx hy hxy
  exact hmono x ((List.perm_insertionSort _ l).mem_iff.mp hx)
    y ((List.perm_insertionSort _ l).mem_iff.mp hy) hxy

theorem mem_sortDedup (l : List ℚ) (x : ℚ) : x ∈ sortDedup l ↔ x ∈ l := by
  unfold sortDedup
  rw [mem_dedupAdj]
  exact (List.perm_insertionSort (· ≤ ·) l).mem_iff

theorem sorted_lt_sortDedup (l : List ℚ) : (sortDedup l).Sorted (· < ·) :=
  sorted_lt_dedupAdj _ (List.sorted_insertionSort (· ≤ ·) l)

theorem sortDedup_map (f : ℚ → ℚ) (l : List ℚ)
    (hinj : ∀ x ∈ l, ∀ y ∈ l, f x = f y → x = y)
    (hmono : ∀ x ∈ l, ∀ y ∈ l, x ≤ y → f x ≤ f y) :
    sortDedup (l.map f) = (sortDedup l).map f := by
  unfold sortDedup
  rw [qsortVals_map f l hmono]
  exact dedupAdj_map f (qsortVals l)
    (fun x hx y hy => hinj x ((List.perm_insertionSort _ l).mem_iff.mp hx)
      y ((List.perm_insertionSort _ l).mem_iff.mp hy))

theorem indexOf_map_inj (f : ℚ → ℚ) :
    ∀ (s : List ℚ) (x : ℚ), (∀ u ∈ s, f u = f x → u = x) →
      (s.map f).indexOf (f x) = s.indexOf x := by
  intro s
  induction s with
  | nil => intro x _; rfl
  | cons a tail ih =>
    intro x hinj
    simp only [List.map_cons, List.indexOf_cons]
    by_cases hax : a = x
    · rw [show (f a == f x) = true from beq_iff_eq.mpr (by rw [hax]),
        show (a == x) = true from beq_iff_eq.mpr hax]
      rfl
    · have hfax : f a ≠ f x := fun h => hax (hinj a (by simp) h)
      rw [show (f a == f x) = false from beq_eq_false_iff_ne.mpr hfax,
        show (a == x) = false from beq_eq_false_iff_ne.mpr hax]
      simp only [cond_false]
      rw [ih x (fun u hu => hinj u (by simp [hu]))]

theorem indexOf_strictMono : ∀ (s : List ℚ), s.Sorted (· < ·) →
    ∀ x ∈ s, ∀ y ∈ s, x < y → s.indexOf x < s.indexOf y := by
  intro s
  induction s with
  | nil => intro _ x hx; simp at hx
  | cons a tail ih =>
    intro hs x hx y hy hxy
    rw [List.sorted_cons] at hs
    simp only [List.indexOf_cons]
    by_cases hax : a = x
    · have hay : a ≠ y := by rw [hax]; exact ne_of_lt hxy
      rw [show (a == x) = true from beq_iff_eq.mpr hax,
        show (a == y) = false from beq_eq_false_iff_ne.mpr hay]
      simp
    · have hxtail : x ∈ tail := by
        rcases List.mem_cons.mp hx with rfl | h
        · exact absurd rfl hax
        · exact h
      have hax2 : a < x := hs.1 x hxtail
      have hay : a ≠ y := ne_of_lt (lt_trans hax2 hxy)
      have hytail : y ∈ tail := by
        rcases List.mem_cons.mp hy with rfl | h
        · exact absurd rfl hay
        · exact h
      rw [show (a == x) = false from beq_eq_false_iff_ne.mpr hax,
        show (a == y) = false from beq_eq_false_iff_ne.mpr hay]
      simp only [cond_false]
      have := ih hs.2 x hxtail y hytail hxy
      omega

theorem nodup_nat_bound (l : List ℕ) (N : ℕ) (hnd : l.Nodup) (hlt : ∀ x ∈ l, x < N) :
    l.length ≤ N := by
  rw [← List.toFinset_card_of_nodup hnd]
  calc l.toFinset.card ≤ (Finset.range N).card :=
        Finset.card_le_card (fun x hx => Finset.mem_range.mpr (hlt x (List.mem_toFinset.mp hx)))
    _ = N := Finset.card_range N

theorem toU8_eq_floor (q : ℚ) (h0 : 0 ≤ q) (h255 : q ≤ 255) : toU8 q = ⌊q⌋.toNat := by
  have h2 : ⌊q⌋ ≤ 255 := by
    calc ⌊q⌋ ≤ ⌊(255:ℚ)⌋ := Int.floor_mono h255
      _ = 255 := by norm_num
  have hle : ⌊q⌋.toNat ≤ 255 := Int.toNat_le.mpr (by exact_mod_cast h2)
  unfold toU8
  rw [if_neg (not_lt.mpr h0), min_eq_right hle]

theorem toU8_rank_strictMono (n : ℚ) (hn : 0 < n) (hn255 : n ≤ 255) (Um1 : ℕ)
    (hUm1 : 0 < Um1) (hUn : (Um1 : ℚ) ≤ n) (j k : ℕ) (hjk : j < k) (hk : k ≤ Um1) :
    toU8 ((j : ℚ) / (Um1 : ℚ) * n) < toU8 ((k : ℚ) / (Um1 : ℚ) * n) := by
  have hUq : (0:ℚ) < (Um1:ℚ) := by exact_mod_cast hUm1
  have hqj0 : 0 ≤ (j:ℚ) / (Um1:ℚ) * n := by positivity
  have hqk0 : 0 ≤ (k:ℚ) / (Um1:ℚ) * n := by positivity
  have hbound : ∀ m : ℕ, m ≤ Um1 → (m:ℚ) / (Um1:ℚ) * n ≤ 255 := by
    intro m hm
    have hm1 : (m:ℚ) / (Um1:ℚ) ≤ 1 := by
      rw [div_le_one hUq]; exact_mod_cast hm
    calc (m:ℚ) / (Um1:ℚ) * n ≤ 1 * n := mul_le_mul_of_nonneg_right hm1 hn.le
      _ = n := one_mul n
      _ ≤ 255 := hn255
  have hgap : (j:ℚ) / (Um1:ℚ) * n + 1 ≤ (k:ℚ) / (Um1:ℚ) * n := by
    have h1 : ((j:ℚ) + 1) ≤ (k:ℚ) := by exact_mod_cast hjk
    have h2 : (1:ℚ) ≤ n / (Um1:ℚ) := (one_le_div hUq).mpr hUn
    have h3 : ((j:ℚ) + 1) / (Um1:ℚ) * n ≤ (k:ℚ) / (Um1:ℚ) * n :=
      mul_le_mul_of_nonneg_right ((div_le_div_right hUq).mpr h1) hn.le
    have h4 : (j:ℚ) / (Um1:ℚ) * n + n / (Um1:ℚ) = ((j:ℚ) + 1) / (Um1:ℚ) * n := by
      field_simp
      ring
    linarith
  rw [toU8_eq_floor _ hqj0 (hbound j (by omega)), toU8_eq_floor _ hqk0 (hbound k hk)]
  have hfl : ⌊(j:ℚ) / (Um1:ℚ) * n⌋ < ⌊(k:ℚ) / (Um1:ℚ) * n⌋ := by
    have hmono := Int.floor_mono hgap
    rw [Int.floor_add_one] at hmono
    omega
  have h0j : 0 ≤ ⌊(j:ℚ) / (Um1:ℚ) * n⌋ := Int.floor_nonneg.mpr hqj0
  omega

/-- The byte the equalizer writes for the gray level `x` of a gray buffer
with levels `xs` at the working bit depth: the cdf rank of `x`'s HSV value
rescaled back through `to_rgb`. -/
def grayOut (bits : ℕ) (xs : List ℕ) (x : ℕ) : ℕ :=
  let n : ℚ := ((2 ^ bits - 1 : ℕ) : ℚ)
  let sd := sortDedup (xs.map fun y : ℕ => (y : ℚ) / n)
  toU8 ((rank sd ((x : ℚ) / n) : ℚ) / ((sd.length - 1 : ℕ) : ℚ) * n)

theorem cdfNaN_some (sd : List ℚ) (q : ℚ) (h2 : 2 ≤ sd.length) :
    cdfNaN sd q = some ((rank sd q : ℚ) / ((sd.length - 1 : ℕ) : ℚ)) := by
  unfold cdfNaN
  rw [if_neg (by omega)]

theorem equalize_gray_eval (bits : ℕ) (xs : List ℕ)
    (hU2 : 2 ≤ (sortDedup (xs.map fun x : ℕ => (x : ℚ) / ((2 ^ bits - 1 : ℕ) : ℚ))).length) :
    equalize (xs.map fun x => (x, x, x)) bits =
      some (xs.map fun x => (grayOut bits xs x, grayOut bits xs x, grayOut bits xs x)) := by
  have h1 : List.map (fun p : ℕ × ℕ × ℕ => HSVColor.from_rgb p.1 p.2.1 p.2.2 bits)
        (List.map (fun x : ℕ => (x, x, x)) xs)
      = List.map (fun x : ℕ =>
          (⟨0, 0, (x : ℚ) / ((2 ^ bits - 1 : ℕ) : ℚ)⟩ : HSVColor)) xs := by
    rw [List.map_map]
    exact List.map_congr_left fun x _ => from_rgb_gray x bits
  have h3 : List.map HSVColor.val (List.map (fun x : ℕ =>
        (⟨0, 0, (x : ℚ) / ((2 ^ bits - 1 : ℕ) : ℚ)⟩ : HSVColor)) xs)
      = List.map (fun x : ℕ => (x : ℚ) / ((2 ^ bits - 1 : ℕ) : ℚ)) xs := by
    rw [List.map_map]
    rfl
  simp only [equalize]
  rw [h1, h3, mapO_map]
  refine mapO_eq_some _ _ xs ?_
  intro x hx
  show (cdfNaN (sortDedup (xs.map fun x : ℕ => (x : ℚ) / ((2 ^ bits - 1 : ℕ) : ℚ)))
      ((x : ℚ) / ((2 ^ bits - 1 : ℕ) : ℚ))).bind _ = _
  rw [cdfNaN_some _ _ hU2]
  show HSVColor.to_rgb ⟨0, 0, _⟩ bits = _
  rw [to_rgb_gray]
  rfl

theorem two_le_length_of_two_mem (l : List ℚ) (x y : ℚ) (hx : x ∈ l) (hy : y ∈ l)
    (hxy : x ≠ y) : 2 ≤ l.length := by
  rcases l with _ | ⟨a, _ | ⟨b, rest⟩⟩
  · simp at hx
  · simp at hx hy
    exact absurd (hx.trans hy.symm) hxy
  · simp only [List.length_cons]
    omega

theorem grayOut_def (bits : ℕ) (xs : List ℕ) (x : ℕ) :
    grayOut bits xs x =
      toU8 ((rank (sortDedup (xs.map fun y : ℕ => (y : ℚ) / ((2 ^ bits - 1 : ℕ) : ℚ)))
          ((x : ℚ) / ((2 ^ bits - 1 : ℕ) : ℚ)) : ℚ) /
        (((sortDedup (xs.map fun y : ℕ => (y : ℚ) / ((2 ^ bits - 1 : ℕ) : ℚ))).length - 1 : ℕ) : ℚ) *
        ((2 ^ bits - 1 : ℕ) : ℚ)) := rfl

/-- C9 (amended): the Equalizer is idempotent on grayscale buffers — every
pixel with `r = g = b`, levels within the working bit depth, and at least
two distinct levels (so the cdf denominator is nonzero).  In general a
second application changes the buffer (see `equalize_not_idempotent`):
pixels whose reconstructed hue is negative are re-encoded differently. -/
theorem equalize_idempotent_gray (bits : ℕ) (xs : List ℕ) (out : List (ℕ × ℕ × ℕ))
    (hb1 : 1 ≤ bits) (hb8 : bits ≤ 8)
    (hbound : ∀ x ∈ xs, x ≤ 2 ^ bits - 1)
    (hdistinct : ∃ x ∈ xs, ∃ y ∈ xs, x ≠ y)
    (hout : equalize (xs.map fun x => (x, x, x)) bits = some out) :
    equalize out bits = some out := by
  set n : ℚ := ((2 ^ bits - 1 : ℕ) : ℚ) with hn_def
  have hnnat : (0:ℕ) < 2 ^ bits - 1 := by
    have : (2:ℕ) ^ 1 ≤ 2 ^ bits := Nat.pow_le_pow_right (by norm_num) hb1
    omega
  have hnpos : (0:ℚ) < n := by rw [hn_def]; exact_mod_cast hnnat
  have hn255 : n ≤ 255 := by
    rw [hn_def]
    have h2 : (2:ℕ) ^ bits ≤ 2 ^ 8 := Nat.pow_le_pow_right (by norm_num) hb8
    exact_mod_cast (by omega : 2 ^ bits - 1 ≤ 255)
  set sd1 := sortDedup (xs.map fun x : ℕ => (x : ℚ) / n) with hsd1_def
  have hform : ∀ q ∈ sd1, ∃ z : ℕ, z ∈ xs ∧ q = (z : ℚ) / n := by
    intro q hq
    obtain ⟨z, hz, rfl⟩ := List.mem_map.mp ((mem_sortDedup _ _).mp hq)
    exact ⟨z, hz, rfl⟩
  have hdivinj : ∀ x y : ℕ, (x:ℚ)/n = (y:ℚ)/n → x = y := by
    intro x y h
    have h2 := congrArg (· * n) h
    simp only [div_mul_cancel₀ _ hnpos.ne'] at h2
    exact_mod_cast h2
  have hU2 : 2 ≤ sd1.length := by
    obtain ⟨x, hx, y, hy, hxy⟩ := hdistinct
    exact two_le_length_of_two_mem sd1 ((x:ℚ)/n) ((y:ℚ)/n)
      ((mem_sortDedup _ _).mpr (List.mem_map_of_mem _ hx))
      ((mem_sortDedup _ _).mpr (List.mem_map_of_mem _ hy))
      (fun h => hxy (hdivinj x y h))
  have hUm1 : 0 < sd1.length - 1 := by omega
  have hsorted : sd1.Sorted (· < ·) := sorted_lt_sortDedup _
  have hnodup : sd1.Nodup := List.Pairwise.imp (fun h => ne_of_lt h) hsorted
  have hUn : ((sd1.length - 1 : ℕ) : ℚ) ≤ n := by
    have hinj : ∀ p ∈ sd1, ∀ q ∈ sd1, (⌊p * n⌋).toNat = (⌊q * n⌋).toNat → p = q := by
      intro p hp q hq h
      obtain ⟨z, hz, rfl⟩ := hform p hp
      obtain ⟨w, hw, rfl⟩ := hform q hq
      rw [div_mul_cancel₀ _ hnpos.ne', Int.floor_natCast, Int.toNat_natCast,
        div_mul_cancel₀ _ hnpos.ne', Int.floor_natCast, Int.toNat_natCast] at h
      rw [h]
    have hbd : ∀ m ∈ sd1.map fun q => (⌊q * n⌋).toNat, m < 2 ^ bits := by
      intro m hm
      obtain ⟨q, hq, rfl⟩ := List.mem_map.mp hm
      obtain ⟨z, hz, rfl⟩ := hform q hq
      rw [div_mul_cancel₀ _ hnpos.ne', Int.floor_natCast, Int.toNat_natCast]
      have := hbound z hz
      omega
    have hlen := nodup_nat_bound (sd1.map fun q => (⌊q * n⌋).toNat) (2 ^ bits)
      (List.Nodup.map_on hinj hnodup) hbd
    rw [List.length_map] at hlen
    rw [hn_def]
    exact_mod_cast (by omega : sd1.length - 1 ≤ 2 ^ bits - 1)
  set F : ℚ → ℚ := fun q =>
    ((toU8 ((rank sd1 q : ℚ) / ((sd1.length - 1 : ℕ) : ℚ) * n) : ℕ) : ℚ) / n with hF_def
  have hFmono : ∀ p ∈ sd1, ∀ q ∈ sd1, p < q → F p < F q := by
    intro p hp q hq hpq
    have hij := indexOf_strictMono sd1 hsorted p hp q hq hpq
    have hjU : List.indexOf q sd1 < sd1.length := List.indexOf_lt_length.mpr hq
    have hmono := toU8_rank_strictMono n hnpos hn255 (sd1.length - 1) hUm1 hUn
      (List.indexOf p sd1) (List.indexOf q sd1) hij (by omega)
    rw [hF_def]
    exact (div_lt_div_right hnpos).mpr (by exact_mod_cast hmono)
  have hFmono2 : ∀ p ∈ sd1, ∀ q ∈ sd1, p ≤ q → F p ≤ F q := by
    intro p hp q hq hpq
    rcases eq_or_lt_of_le hpq with rfl | h
    · exact le_refl _
    · exact (hFmono p hp q hq h).le
  have hFinj : ∀ p ∈ sd1, ∀ q ∈ sd1, F p = F q → p = q := by
    intro p hp q hq h
    rcases lt_trichotomy p q with h2 | h2 | h2
    · exact absurd h (ne_of_lt (hFmono p hp q hq h2))
    · exact h2
    · exact absurd h.symm (ne_of_lt (hFmono q hq p hp h2))
  have hmem1 : ∀ q ∈ (xs.map fun x : ℕ => (x:ℚ)/n), q ∈ sd1 :=
    fun q hq => (mem_sortDedup _ _).mpr hq
  rw [equalize_gray_eval bits xs hU2] at hout
  have hout2 : (xs.map fun x =>
      (grayOut bits xs x, grayOut bits xs x, grayOut bits xs x)) = out :=
    Option.some_inj.mp hout
  have houtform : out = (xs.map fun x => grayOut bits xs x).map (fun t => (t, t, t)) := by
    rw [← hout2, List.map_map]
    rfl
  have hvals2 : ((xs.map fun x => grayOut bits xs x).map fun t : ℕ => (t:ℚ)/n)
      = (xs.map fun x : ℕ => (x:ℚ)/n).map F := by
    rw [List.map_map, List.map_map]
    exact List.map_congr_left fun x _ => rfl
  have hsd2 : sortDedup ((xs.map fun x => grayOut bits xs x).map fun t : ℕ => (t:ℚ)/n)
      = sd1.map F := by
    rw [hvals2, sortDedup_map F _ (fun x hx y hy => hFinj x (hmem1 x hx) y (hmem1 y hy))
      (fun x hx y hy => hFmono2 x (hmem1 x hx) y (hmem1 y hy))]
  have hU2b : 2 ≤ (sortDedup ((xs.map fun x => grayOut bits xs x).map
      fun t : ℕ => (t:ℚ)/n)).length := by
    rw [hsd2, List.length_map]
    exact hU2
  rw [houtform, equalize_gray_eval bits (xs.map fun x => grayOut bits xs x) hU2b]
  refine congrArg some ?_
  rw [List.map_map, List.map_map]
  refine List.map_congr_left fun x hx => ?_
  have hxmem : (x:ℚ)/n ∈ sd1 := (mem_sortDedup _ _).mpr (List.mem_map_of_mem _ hx)
  have hTT : grayOut bits (xs.map fun x => grayOut bits xs x) (grayOut bits xs x)
      = grayOut bits xs x := by
    rw [grayOut_def bits (xs.map fun x => grayOut bits xs x)]
    rw [show ((grayOut bits xs x : ℕ) : ℚ) / ((2 ^ bits - 1 : ℕ) : ℚ) = F ((x:ℚ)/n) from rfl]
    rw [show sortDedup ((xs.map fun x => grayOut bits xs x).map
        fun y : ℕ => (y : ℚ) / ((2 ^ bits - 1 : ℕ) : ℚ)) = sd1.map F from hsd2]
    rw [show rank (sd1.map F) (F ((x:ℚ)/n)) = rank sd1 ((x:ℚ)/n) from
      indexOf_map_inj F sd1 ((x:ℚ)/n) (fun u hu h => hFinj u hu _ hxmem h)]
    rw [List.length_map]
    rfl
  simp only [Function.comp_apply]
  rw [hTT]

theorem sortDedup_01 : sortDedup [(1:ℚ), 0] = [0, 1] := by
  norm_num [sortDedup, qsortVals, dedupAdj, List.insertionSort, List.orderedInsert]

theorem cdfNaN_01_1 : cdfNaN [(0:ℚ), 1] 1 = some 1 := by
  norm_num [cdfNaN, rank, List.indexOf_cons]

theorem cdfNaN_01_0 : cdfNaN [(0:ℚ), 1] 0 = some 0 := by
  norm_num [cdfNaN, rank, List.indexOf_cons]

theorem from_rgb_cex1 : HSVColor.from_rgb 255 128 192 8 = ⟨-3840/127, 127/255, 1⟩ := by
  simp only [HSVColor.from_rgb, frem, qtrunc, max_def, min_def]
  norm_num

theorem to_rgb_cex1 : HSVColor.to_rgb ⟨-3840/127, 127/255, 1⟩ 8 = some (255, 64, 128) := by
  simp only [HSVColor.to_rgb, frem, qtrunc, toU8]
  norm_num [abs_of_nonneg, abs_of_nonpos]
  decide

theorem from_rgb_cex2 : HSVColor.from_rgb 255 64 128 8 = ⟨-3840/191, 191/255, 1⟩ := by
  simp only [HSVColor.from_rgb, frem, qtrunc, max_def, min_def]
  norm_num

theorem to_rgb_cex2 : HSVColor.to_rgb ⟨-3840/191, 191/255, 1⟩ 8 = some (255, 0, 64) := by
  simp only [HSVColor.to_rgb, frem, qtrunc, toU8]
  norm_num [abs_of_nonneg, abs_of_nonpos]
  decide

theorem from_rgb_zero : HSVColor.from_rgb 0 0 0 8 = ⟨0, 0, 0⟩ := by
  simp only [HSVColor.from_rgb, frem, qtrunc, max_def, min_def]
  norm_num

theorem to_rgb_zero : HSVColor.to_rgb ⟨0, 0, 0⟩ 8 = some (0, 0, 0) := by
  rw [show (⟨0, 0, 0⟩ : HSVColor) = ⟨0, 0, ((0:ℕ):ℚ) / ((2^8 - 1 : ℕ):ℚ)⟩ from by norm_num,
    show ((0:ℕ):ℚ) / ((2^8 - 1 : ℕ):ℚ) = 0 from by norm_num]
  rw [to_rgb_gray]
  norm_num [toU8]

theorem equalize_cex_first :
    equalize [((255:ℕ), (128:ℕ), (192:ℕ)), (0, 0, 0)] 8 = some [(255, 64, 128), (0, 0, 0)] := by
  simp only [equalize, List.map_cons, List.map_nil]
  rw [from_rgb_cex1, from_rgb_zero]
  dsimp only
  rw [sortDedup_01]
  simp only [mapO, cdfNaN_01_1, cdfNaN_01_0, Option.some_bind, to_rgb_cex1, to_rgb_zero]

theorem equalize_cex_second :
    equalize [((255:ℕ), (64:ℕ), (128:ℕ)), (0, 0, 0)] 8 = some [(255, 0, 64), (0, 0, 0)] := by
  simp only [equalize, List.map_cons, List.map_nil]
  rw [from_rgb_cex2, from_rgb_zero]
  dsimp only
  rw [sortDedup_01]
  simp only [mapO, cdfNaN_01_1, cdfNaN_01_0, Option.some_bind, to_rgb_cex2, to_rgb_zero]

/-- C9 counterexample: equalizing twice does not equal equalizing once.
On the two-pixel buffer `[(255,128,192), (0,0,0)]` at depth 8, the first
pass rewrites the first pixel (whose computed hue is negative) to
`(255,64,128)`, and the second pass rewrites it again to `(255,0,64)` —
the hue/saturation re-derived from the first pass's truncated RGB encode
to different bytes.  The byte changes are whole-value shifts (`64 → 0`,
`128 → 64`), produced by the negative-hue first-sector reconstruction, not
float-rounding artifacts. -/
theorem equalize_not_idempotent :
    (equalize [(255, 128, 192), (0, 0, 0)] 8).bind (fun l => equalize l 8) ≠
      equalize [(255, 128, 192), (0, 0, 0)] 8 := by
  rw [equalize_cex_first]
  simp only [Option.some_bind]
  rw [equalize_cex_second]
  decide

theorem equalize_gray_witness_eval :
    equalize ([0, 1].map fun x : ℕ => (x, x, x)) 1 = some [(0, 0, 0), (1, 1, 1)] := by
  have hlist : ([0, 1].map fun x : ℕ => (x:ℚ) / ((2 ^ 1 - 1 : ℕ) : ℚ)) = [0, 1] := by norm_num
  have hU : 2 ≤ (sortDedup ([0, 1].map fun x : ℕ => (x:ℚ) / ((2 ^ 1 - 1 : ℕ) : ℚ))).length := by
    rw [hlist]
    norm_num [sortDedup, qsortVals, dedupAdj, List.insertionSort, List.orderedInsert]
  rw [equalize_gray_eval 1 [0, 1] hU]
  have h0 : grayOut 1 [0, 1] 0 = 0 := by
    rw [grayOut_def]
    norm_num [sortDedup, qsortVals, dedupAdj, List.insertionSort, List.orderedInsert,
      rank, List.indexOf_cons, toU8]
  have h1 : grayOut 1 [0, 1] 1 = 1 := by
    rw [grayOut_def]
    norm_num [sortDedup, qsortVals, dedupAdj, List.insertionSort, List.orderedInsert,
      rank, List.indexOf_cons, toU8]
  simp [h0, h1]

/-- Witness for C9 (amended) on the two-level gray buffer
`[(0,0,0), (1,1,1)]` at depth 1, which equalize maps to itself. -/
theorem equalize_idempotent_gray_witness :
    equalize [((0:ℕ), (0:ℕ), (0:ℕ)), (1, 1, 1)] 1 = some [(0, 0, 0), (1, 1, 1)] :=
  equalize_idempotent_gray 1 [0, 1] [(0, 0, 0), (1, 1, 1)] (by decide) (by decide)
    (by decide) (by decide) equalize_gray_witness_eval
